import Mathlib

/-!
Verification of the sales-intelligence service (`main.py` and
`services/ai_service.py`) against its natural-language specification.

The Python strings are embedded as `List Char`; Python's `str.strip`,
`str.startswith`, `str.endswith` and slicing become executable list
functions.  `json.loads` is modelled by a recursive-descent parser
(`parseVal`/`parseElems`/`parseMembers`, fueled for structural
termination) that follows CPython's `json` package: same grammar, same
acceptance of `NaN`/`Infinity`, same error phrases and same
line/column/char positions in error messages.  Numbers are kept as their
lexemes (the claims never compare numeric values across different
spellings), and each `\uXXXX` escape maps through `Char.ofNat` without
recombining surrogate pairs; both simplifications change only the decoded
value on exotic escape inputs, never success, failure, error phrase or
error position, and are immaterial to every claim below.
-/

/-- ASCII whitespace stripped by Python's `str.strip()`. -/
def isPyWs (c : Char) : Bool :=
  c == ' ' || c == '\t' || c == '\n' || c == '\r' || c == '\x0b' || c == '\x0c'

/-- JSON whitespace, as in CPython's `json` module (`' \t\n\r'`). -/
def isJWs (c : Char) : Bool :=
  c == ' ' || c == '\t' || c == '\n' || c == '\r'

/-- Remove trailing characters satisfying `p`. -/
def trimR (p : Char → Bool) (l : List Char) : List Char :=
  (l.reverse.dropWhile p).reverse

/-- Python's `s.strip()` on the character list. -/
def pyStrip (l : List Char) : List Char :=
  trimR isPyWs (l.dropWhile isPyWs)

/-- The backtick character (code 96). -/
def tick : Char := Char.ofNat 96

/-- A generic triple-backtick fence marker. -/
def fence3 : List Char := [tick, tick, tick]

/-- The "```json" opening marker (7 characters). -/
def fenceJson : List Char := fence3 ++ ['j', 's', 'o', 'n']

/-- First index at which `pat` occurs as a contiguous sublist of `l`. -/
def findInfixIdx (pat : List Char) : List Char → Option Nat
  | [] => if pat.isEmpty then some 0 else none
  | c :: t =>
    if pat.isPrefixOf (c :: t) then some 0
    else (findInfixIdx pat t).map (· + 1)

/-- JSON values as produced by `json.loads`; objects keep their members in
document order and numbers keep their source lexeme. -/
inductive Json where
  | null
  | bool (b : Bool)
  | num (lexeme : String)
  | str (s : String)
  | arr (elems : List Json)
  | obj (members : List (String × Json))

/-- Internal parse error: the CPython error phrase plus the length of the
remaining input at the point of failure (the absolute character offset is
recovered at top level). -/
structure PErr where
  msg : String
  rem : Nat

/-- `json.JSONDecodeError` surface: error phrase and absolute position. -/
structure DecodeError where
  msg : String
  pos : Nat

/-- Value of one hexadecimal digit. -/
def hexDigitVal (c : Char) : Option Nat :=
  if '0' ≤ c ∧ c ≤ '9' then some (c.toNat - 48)
  else if 'a' ≤ c ∧ c ≤ 'f' then some (c.toNat - 87)
  else if 'A' ≤ c ∧ c ≤ 'F' then some (c.toNat - 55)
  else none

/-- Four hexadecimal digits, as in a `\uXXXX` escape. -/
def hex4 (a b c d : Char) : Option Nat :=
  match hexDigitVal a, hexDigitVal b, hexDigitVal c, hexDigitVal d with
  | some x, some y, some z, some w => some (4096 * x + 256 * y + 16 * z + w)
  | _, _, _, _ => none

/-- The single-character escapes of the JSON string grammar (CPython's
BACKSLASH table, minus `\u`). -/
def escChar? (e : Char) : Option Char :=
  if e = '"' then some '"'
  else if e = '\\' then some '\\'
  else if e = '/' then some '/'
  else if e = 'b' then some '\x08'
  else if e = 'f' then some '\x0c'
  else if e = 'n' then some '\n'
  else if e = 'r' then some '\r'
  else if e = 't' then some '\t'
  else none

/-- CPython's `py_scanstring`: parse the body of a string literal (the
input starts just after the opening quote).  `q` is the remaining-input
length at the opening quote, used by "Unterminated string starting at"
errors. -/
def parseStr (q : Nat) (acc : String) : List Char → Except PErr (String × List Char)
  | [] => .error ⟨"Unterminated string starting at", q⟩
  | '"' :: r => .ok (acc, r)
  | '\\' :: r =>
    match r with
    | [] => .error ⟨"Unterminated string starting at", q⟩
    | 'u' :: r2 =>
      match r2 with
      | h1 :: h2 :: h3 :: h4 :: r3 =>
        match hex4 h1 h2 h3 h4 with
        | some n => parseStr q (acc.push (Char.ofNat n)) r3
        | none => .error ⟨"Invalid \\uXXXX escape", r2.length⟩
      | _ => .error ⟨"Invalid \\uXXXX escape", r2.length⟩
    | e :: r2 =>
      match escChar? e with
      | some ec => parseStr q (acc.push ec) r2
      | none => .error ⟨"Invalid \\escape", (e :: r2).length⟩
  | c :: r =>
    if c.toNat < 0x20 then .error ⟨"Invalid control character at", (c :: r).length⟩
    else parseStr q (acc.push c) r

/-- One-or-more decimal digits (`\d+`). -/
def digits1 (l : List Char) : Option (List Char × List Char) :=
  let ds := l.takeWhile Char.isDigit
  if ds.isEmpty then none else some (ds, l.dropWhile Char.isDigit)

/-- Integer part of CPython's NUMBER_RE: `0|[1-9]\d*`. -/
def lexIntPart : List Char → Option (List Char × List Char)
  | '0' :: r => some (['0'], r)
  | c :: r => if c.isDigit then some (c :: r.takeWhile Char.isDigit, r.dropWhile Char.isDigit) else none
  | [] => none

/-- Optional fraction `(\.\d+)?`; returns the consumed lexeme part. -/
def lexFrac (l : List Char) : List Char × List Char :=
  match l with
  | '.' :: r =>
    match digits1 r with
    | some (ds, r2) => ('.' :: ds, r2)
    | none => ([], l)
  | _ => ([], l)

/-- Optional exponent `([eE][-+]?\d+)?`; returns the consumed lexeme part. -/
def lexExp (l : List Char) : List Char × List Char :=
  match l with
  | c :: s :: r2 =>
    if c = 'e' || c = 'E' then
      if s = '+' || s = '-' then
        match digits1 r2 with
        | some (ds, r3) => (c :: s :: ds, r3)
        | none => ([], l)
      else
        match digits1 (s :: r2) with
        | some (ds, r3) => (c :: ds, r3)
        | none => ([], l)
    else ([], l)
  | _ => ([], l)

/-- CPython's NUMBER_RE match: `(-?(?:0|[1-9]\d*))(\.\d+)?([eE][-+]?\d+)?`. -/
def lexNumber (l : List Char) : Option (List Char × List Char) :=
  match l with
  | '-' :: r =>
    match lexIntPart r with
    | some (ip, r2) =>
      let fr := lexFrac r2
      let ex := lexExp fr.2
      some ('-' :: ip ++ fr.1 ++ ex.1, ex.2)
    | none => none
  | _ =>
    match lexIntPart l with
    | some (ip, r2) =>
      let fr := lexFrac r2
      let ex := lexExp fr.2
      some (ip ++ fr.1 ++ ex.1, ex.2)
    | none => none

mutual

/-- CPython's `_scan_once`: parse one JSON value starting exactly at the
head of the input (callers skip whitespace first, as in the decoder). -/
def parseVal : Nat → List Char → Except PErr (Json × List Char)
  | 0, l => .error ⟨"Fuel exhausted", l.length⟩
  | f + 1, [] => .error ⟨"Expecting value", 0⟩
  | f + 1, c :: r =>
    if c = '"' then
      match parseStr (r.length + 1) "" r with
      | .ok (s, r2) => .ok (.str s, r2)
      | .error e => .error e
    else if c = '{' then
      let r1 := r.dropWhile isJWs
      match r1 with
      | '}' :: r2 => .ok (.obj [], r2)
      | '"' :: _ => parseMembers f r1
      | _ => .error ⟨"Expecting property name enclosed in double quotes", r1.length⟩
    else if c = '[' then
      let r1 := r.dropWhile isJWs
      match r1 with
      | ']' :: r2 => .ok (.arr [], r2)
      | _ => parseElems f r1
    else if c = 'n' then
      match r with
      | 'u' :: 'l' :: 'l' :: r2 => .ok (.null, r2)
      | _ => .error ⟨"Expecting value", r.length + 1⟩
    else if c = 't' then
      match r with
      | 'r' :: 'u' :: 'e' :: r2 => .ok (.bool true, r2)
      | _ => .error ⟨"Expecting value", r.length + 1⟩
    else if c = 'f' then
      match r with
      | 'a' :: 'l' :: 's' :: 'e' :: r2 => .ok (.bool false, r2)
      | _ => .error ⟨"Expecting value", r.length + 1⟩
    else if c = 'N' then
      match r with
      | 'a' :: 'N' :: r2 => .ok (.num "NaN", r2)
      | _ => .error ⟨"Expecting value", r.length + 1⟩
    else if c = 'I' then
      match r with
      | 'n' :: 'f' :: 'i' :: 'n' :: 'i' :: 't' :: 'y' :: r2 => .ok (.num "Infinity", r2)
      | _ => .error ⟨"Expecting value", r.length + 1⟩
    else
      match lexNumber (c :: r) with
      | some (lex, r2) => .ok (.num (String.mk lex), r2)
      | none =>
        if c = '-' then
          match r with
          | 'I' :: 'n' :: 'f' :: 'i' :: 'n' :: 'i' :: 't' :: 'y' :: r2 => .ok (.num "-Infinity", r2)
          | _ => .error ⟨"Expecting value", r.length + 1⟩
        else .error ⟨"Expecting value", r.length + 1⟩

/-- CPython's `JSONArray` loop, entered at the first element (whitespace
already skipped, input known not to start with `]`). -/
def parseElems : Nat → List Char → Except PErr (Json × List Char)
  | 0, l => .error ⟨"Fuel exhausted", l.length⟩
  | f + 1, l =>
    match parseVal f l with
    | .error e => .error e
    | .ok (v, r1) =>
      let r2 := r1.dropWhile isJWs
      match r2 with
      | ']' :: r3 => .ok (.arr [v], r3)
      | ',' :: r3 =>
        let r4 := r3.dropWhile isJWs
        match parseElems f r4 with
        | .ok res =>
          match res with
          | (.arr vs, r5) => .ok (.arr (v :: vs), r5)
          | (_, r5) => .error ⟨"Internal error", r5.length⟩
        | .error e => .error e
      | _ => .error ⟨"Expecting ',' delimiter", r2.length⟩

/-- CPython's `JSONObject` loop, entered at the opening quote of a key. -/
def parseMembers : Nat → List Char → Except PErr (Json × List Char)
  | 0, l => .error ⟨"Fuel exhausted", l.length⟩
  | f + 1, l =>
    match l with
    | '"' :: r =>
      match parseStr (r.length + 1) "" r with
      | .error e => .error e
      | .ok (key, r1) =>
        let r2 := r1.dropWhile isJWs
        match r2 with
        | ':' :: r3 =>
          let r4 := r3.dropWhile isJWs
          match parseVal f r4 with
          | .error e => .error e
          | .ok (v, r5) =>
            let r6 := r5.dropWhile isJWs
            match r6 with
            | '}' :: r7 => .ok (.obj [(key, v)], r7)
            | ',' :: r7 =>
              let r8 := r7.dropWhile isJWs
              match r8 with
              | '"' :: _ =>
                match parseMembers f r8 with
                | .ok res =>
                  match res with
                  | (.obj ms, r9) => .ok (.obj ((key, v) :: ms), r9)
                  | (_, r9) => .error ⟨"Internal error", r9.length⟩
                | .error e => .error e
              | _ => .error ⟨"Expecting property name enclosed in double quotes", r8.length⟩
            | _ => .error ⟨"Expecting ',' delimiter", r6.length⟩
        | _ => .error ⟨"Expecting ':' delimiter", r2.length⟩
    | _ => .error ⟨"Expecting property name enclosed in double quotes", l.length⟩

end

/-- `json.loads`: skip leading whitespace, scan one value, and demand that
only whitespace follows ("Extra data" otherwise).  Trailing whitespace is
removed up front — the scanner never reads past the value it returns — and
error offsets are recovered from remaining-input lengths. -/
def jsonParseE (l : List Char) : Except DecodeError Json :=
  let l1 := l.dropWhile isJWs
  let t := trimR isJWs l1
  let lead := l.length - l1.length
  match parseVal (t.length + 1) t with
  | .ok (v, r) =>
    if r.isEmpty then .ok v
    else
      let r2 := r.dropWhile isJWs
      .error ⟨"Extra data", lead + (t.length - r2.length)⟩
  | .error e => .error ⟨e.msg, lead + (t.length - e.rem)⟩

/-- `str(e)` for a `json.JSONDecodeError` raised on document `doc`:
`"<msg>: line L column C (char P)"`. -/
def renderDecodeError (doc : List Char) (e : DecodeError) : String :=
  let before := doc.take e.pos
  let lineno := before.countP (fun c => c == '\n') + 1
  let colno := (before.reverse.takeWhile (fun c => c != '\n')).length + 1
  e.msg ++ ": line " ++ toString lineno ++ " column " ++ toString colno ++
    " (char " ++ toString e.pos ++ ")"

/-- The markdown cleanup in `generate_sales_intelligence` (main.py
544-564): strip, remove a leading "```json" (7 chars) or else "```"
(3 chars), remove a trailing "```", strip again. -/
def cleanResponse (l : List Char) : List Char :=
  let c0 := pyStrip l
  let c1 :=
    if fenceJson.isPrefixOf c0 then c0.drop 7
    else if fence3.isPrefixOf c0 then c0.drop 3
    else c0
  let c2 := if fence3.isSuffixOf c1 then c1.take (c1.length - 3) else c1
  pyStrip c2

/-- The single parse attempt of main.py's extractor: `json.loads` applied
to the cleaned response. -/
def extractJson (l : List Char) : Except DecodeError Json :=
  jsonParseE (cleanResponse l)

/-- The two failures `generate_sales_intelligence` can signal from the
model's accumulated text. -/
inductive GenError where
  | emptyResponse
  | invalidJson (detail : String)

/-- The exception message surfaced for each failure (main.py 541 and 587). -/
def GenError.message : GenError → String
  | .emptyResponse => "Empty response received from AI model"
  | .invalidJson d => "Invalid JSON response from AI: " ++ d

/-- main.py 539-587 applied to the accumulated streamed string: the
empty-response check, then the cleanup-and-parse block, whose
`json.JSONDecodeError` is re-raised as `"Invalid JSON response from AI: "
++ str(e)`. -/
def processResponse (full : String) : Except GenError Json :=
  if (pyStrip full.data).isEmpty then .error .emptyResponse
  else
    match extractJson full.data with
    | .ok v => .ok v
    | .error e => .error (.invalidJson (renderDecodeError (cleanResponse full.data) e))

/-- `CompanyAnalysisRequest` (main.py 33-46): URL fields are carried as
their textual form. -/
structure CompanyAnalysisRequest where
  company_name : String
  company_website : String
  company_linkedin : Option String

/-- `CompanyAnalysisResponse` (main.py 49-54). -/
structure CompanyAnalysisResponse where
  status : String
  data : Option Json
  error : Option String
  tokens_used : Option Nat

/-- FastAPI's serialization of the response model: one JSON object with
exactly the model's four fields. -/
def responseToJson (r : CompanyAnalysisResponse) : Json :=
  .obj [("status", .str r.status),
        ("data", match r.data with | some j => j | none => .null),
        ("error", match r.error with | some e => .str e | none => .null),
        ("tokens_used", match r.tokens_used with | some n => .num (toString n) | none => .null)]

/-- Keys of a JSON object (empty for non-objects). -/
def Json.objKeys : Json → List String
  | .obj ms => ms.map Prod.fst
  | _ => []

/-- A raised `HTTPException`. -/
structure HTTPErrorModel where
  status_code : Nat
  detail : String

/-- The `/api/v1/analyze` handler (main.py 593-626) as a function of the
request and of the model's accumulated streamed text. -/
def analyze_company (req : CompanyAnalysisRequest) (raw : String) :
    Except HTTPErrorModel CompanyAnalysisResponse :=
  match processResponse raw with
  | .ok result => .ok ⟨"success", some result, none, none⟩
  | .error e => .error ⟨500, "Analysis failed: " ++ e.message⟩

/-- `monthName` for `strftime("%B ...")`. -/
def monthName : Nat → String
  | 1 => "January"
  | 2 => "February"
  | 3 => "March"
  | 4 => "April"
  | 5 => "May"
  | 6 => "June"
  | 7 => "July"
  | 8 => "August"
  | 9 => "September"
  | 10 => "October"
  | 11 => "November"
  | 12 => "December"
  | _ => ""

/-- Zero-padded two-digit rendering, as `%d` in `strftime`. -/
def pad2 (n : Nat) : String :=
  if n < 10 then "0" ++ toString n else toString n

/-- `datetime.now().strftime("%B %d, %Y")` (main.py 96) for a given date. -/
def renderAnalysisDate (y m d : Nat) : String :=
  monthName m ++ " " ++ pad2 d ++ ", " ++ toString y

/-- Modelled from the spec: the `YYYY-MM-DD` date form the spec says the
analysis date defaults to. -/
def isoDate (y m d : Nat) : String :=
  toString y ++ "-" ++ pad2 m ++ "-" ++ pad2 d

/-- The user prompt `text1` of main.py 99-106: an f-string interpolating
the website, the company name, the optional LinkedIn line and the date. -/
def buildPrompt (company_name company_website : String)
    (company_linkedin : Option String) (current_date : String) : String :=
  let linkedin_text :=
    match company_linkedin with
    | some l => "\nCompany LinkedIn: " ++ l
    | none => ""
  "Analyze " ++ company_website ++
    " and generate the sales intelligence report.\n\nCompany Name: " ++
    company_name ++ linkedin_text ++ "\nAnalysis Date: " ++ current_date ++
    "\n\nReturn valid JSON only - no markdown or code blocks."

/-- The prompt built for a request at a given current date. -/
def generatePrompt (req : CompanyAnalysisRequest) (y m d : Nat) : String :=
  buildPrompt req.company_name req.company_website req.company_linkedin
    (renderAnalysisDate y m d)

/-- One streamed chunk as seen by `generate_report` (ai_service.py
446-455): whether `candidates[0].content.parts` is present, and the
chunk's text (empty models an absent `chunk.text`). -/
structure Chunk where
  hasParts : Bool
  text : String

/-- The accumulation loop of `generate_report`: fragments are appended in
arrival order; chunks without parts are skipped. -/
def accumulateChunks (chunks : List Chunk) : String :=
  chunks.foldl (fun acc c => if c.hasParts && !(c.text == "") then acc ++ c.text else acc) ""

/-- The failure `generate_report` can raise from the accumulated text. -/
inductive GenReportError where
  | emptyOrIncomplete

/-- `SalesIntelligenceGenerator.generate_report` (ai_service.py 444-467)
as a function of the streamed chunks: accumulate, fail when the result has
fewer than 10 characters, otherwise return the text verbatim. -/
def generate_report (chunks : List Chunk) : Except GenReportError String :=
  let t := accumulateChunks chunks
  if t = "" ∨ t.length < 10 then .error .emptyOrIncomplete
  else .ok t

/-- Modelled from the spec: the ordered-strategy extractor of spec
section 4.4 — direct parse; then a "```json" block at any position (text
between the marker and the next fence, stripped); then the first generic
fenced block; else a parse failure carrying the first 200 characters of
the raw text. -/
def specStrat2 (l : List Char) : Option Json :=
  match findInfixIdx fenceJson l with
  | none => none
  | some i =>
    let tail := l.drop (i + 7)
    match findInfixIdx fence3 tail with
    | none => none
    | some j => (jsonParseE (pyStrip (tail.take j))).toOption

/-- Modelled from the spec: strategy 3, the first generic fenced block. -/
def specStrat3 (l : List Char) : Option Json :=
  match findInfixIdx fence3 l with
  | none => none
  | some i =>
    let tail := l.drop (i + 3)
    match findInfixIdx fence3 tail with
    | none => none
    | some j => (jsonParseE (tail.take j)).toOption

/-- Modelled from the spec: the full ordered-strategy extractor of spec
section 4.4 (the behavior claim C1 asserts of the code). -/
def specOrderedExtract (s : String) : Except String Json :=
  match (jsonParseE s.data).toOption <|> specStrat2 s.data <|> specStrat3 s.data with
  | some v => .ok v
  | none => .error (String.mk (s.data.take 200))

/-- Removal of a leading fence marker only at the very start of the
string: "```json" (7 characters) or else "```" (3 characters). -/
def stripLeadingFence (l : List Char) : List Char :=
  if fenceJson.isPrefixOf l then l.drop 7
  else if fence3.isPrefixOf l then l.drop 3
  else l

/-- Removal of a trailing "```" only at the very end of the string. -/
def stripTrailingFence (l : List Char) : List Char :=
  if fence3.isSuffixOf l then l.take (l.length - 3) else l

/-! ### Supporting lemmas -/


theorem jws_pyws {c : Char} (h : isJWs c = true) : isPyWs c = true := by
  simp only [isJWs, Bool.or_eq_true, beq_iff_eq] at h
  rcases h with ((h | h) | h) | h <;> subst h <;> rfl

theorem pyws_false_jws {c : Char} (h : isPyWs c = false) : isJWs c = false := by
  cases hj : isJWs c with
  | false => rfl
  | true => rw [jws_pyws hj] at h; cases h

theorem dropWhile_head_false {p : Char → Bool} {l : List Char} {c : Char}
    (h : (l.dropWhile p).head? = some c) : p c = false := by
  induction l with
  | nil => simp [List.dropWhile] at h
  | cons a t ih =>
    by_cases hp : p a
    · simp only [List.dropWhile_cons, hp, if_true] at h; exact ih h
    · simp only [List.dropWhile_cons, hp, if_false, List.head?] at h
      simp only [Bool.false_eq_true, if_false, List.head?_cons, Option.some.injEq] at h
      subst h; exact Bool.eq_false_iff.mpr hp

theorem dropWhile_cons_false {p : Char → Bool} {c : Char} (h : p c = false) (t : List Char) :
    (c :: t).dropWhile p = c :: t := by
  simp [List.dropWhile_cons, h]

theorem dropWhile_absorb {p q : Char → Bool} (hpq : ∀ c, q c = true → p c = true)
    (l : List Char) : (l.dropWhile q).dropWhile p = l.dropWhile p := by
  induction l with
  | nil => rfl
  | cons a t ih =>
    by_cases hq : q a
    · simp [List.dropWhile_cons, hq, hpq a hq, ih]
    · simp [List.dropWhile_cons, hq]

theorem dropWhile_append_all {p : Char → Bool} {a : List Char} (b : List Char)
    (h : ∀ c ∈ a, p c = true) : (a ++ b).dropWhile p = b.dropWhile p := by
  induction a with
  | nil => rfl
  | cons x t ih =>
    simp only [List.cons_append, List.dropWhile_cons, h x (by simp), if_true]
    exact ih (fun c hc => h c (by simp [hc]))

theorem trimR_decomp (p : Char → Bool) (l : List Char) :
    ∃ w, l = trimR p l ++ w ∧ ∀ c ∈ w, p c = true := by
  refine ⟨(l.reverse.takeWhile p).reverse, ?_, ?_⟩
  · unfold trimR
    rw [← List.reverse_append, List.takeWhile_append_dropWhile, List.reverse_reverse]
  · intro c hc
    rw [List.mem_reverse] at hc
    exact List.mem_takeWhile_imp hc

theorem trimR_getLast_false {p : Char → Bool} {l : List Char} {c : Char}
    (h : (trimR p l).getLast? = some c) : p c = false := by
  unfold trimR at h
  rw [List.getLast?_reverse] at h
  exact dropWhile_head_false h

theorem trimR_eq_self {p : Char → Bool} {l : List Char} {c : Char}
    (hl : l.getLast? = some c) (hc : p c = false) : trimR p l = l := by
  unfold trimR
  rw [← List.head?_reverse] at hl
  cases hrev : l.reverse with
  | nil => rw [hrev] at hl; simp at hl
  | cons a t =>
    rw [hrev] at hl
    simp only [List.head?_cons, Option.some.injEq] at hl
    subst hl
    rw [dropWhile_cons_false hc, ← hrev, List.reverse_reverse]

theorem trimR_append_all {p : Char → Bool} {t w : List Char} (h : ∀ c ∈ w, p c = true) :
    trimR p (t ++ w) = trimR p t := by
  unfold trimR
  rw [List.reverse_append, dropWhile_append_all _ (fun c hc => h c (List.mem_reverse.mp hc))]

theorem pyStrip_eq_self {l : List Char}
    (hhead : ∀ c, l.head? = some c → isPyWs c = false)
    (hlast : ∀ c, l.getLast? = some c → isPyWs c = false) : pyStrip l = l := by
  unfold pyStrip
  cases l with
  | nil => rfl
  | cons a t =>
    rw [dropWhile_cons_false (hhead a rfl)]
    cases hg : (a :: t).getLast? with
    | none => simp at hg
    | some c => exact trimR_eq_self hg (hlast c hg)

theorem suffix_of_getLast?_some {l m : List Char} {c : Char}
    (hl : l.getLast? = some c) (hs : l <:+ m) : m.getLast? = some c := by
  obtain ⟨t, rfl⟩ := hs
  rw [List.getLast?_append, hl]
  rfl

theorem getLast?_ne_nil {l : List Char} {c : Char} (hl : l.getLast? = some c) : l ≠ [] := by
  intro h; subst h; simp at hl

theorem parseStr_suffix {q : Nat} (acc : String) (l : List Char) :
    ∀ s r, parseStr q acc l = .ok (s, r) → r <:+ l := by
  induction acc, l using parseStr.induct q with
  | case1 acc => intro s r h; exact absurd h (by simp [parseStr])
  | case2 acc r0 =>
    intro s r h
    simp only [parseStr, Except.ok.injEq, Prod.mk.injEq] at h
    exact h.2 ▸ List.suffix_cons _ _
  | case3 acc => intro s r h; exact absurd h (by simp [parseStr])
  | case4 acc h1 h2 h3 h4 r3 n hx ih =>
    intro s r h
    simp only [parseStr, hx] at h
    exact (ih s r h).trans ⟨['\\', 'u', h1, h2, h3, h4], rfl⟩
  | case5 acc h1 h2 h3 h4 r3 hx =>
    intro s r h
    simp only [parseStr, hx] at h
    exact Except.noConfusion h
  | case6 acc r2 hne =>
    intro s r h
    simp only [parseStr] at h
    exact Except.noConfusion h
  | case7 acc e r2 hu ec hesc ih =>
    intro s r h
    simp only [parseStr] at h
    split at h
    · rename_i ec2 heq
      rw [hesc, Option.some.injEq] at heq
      subst heq
      exact (ih s r h).trans ⟨['\\', e], rfl⟩
    · exact Except.noConfusion h
  | case8 acc e r2 hu hesc =>
    intro s r h
    simp only [parseStr] at h
    split at h
    · rename_i ec2 heq
      rw [hesc] at heq
      exact Option.noConfusion heq
    · exact Except.noConfusion h
  | case9 acc c r0 hq hb hc =>
    intro s r h
    simp only [parseStr] at h
    split at h
    · exact Except.noConfusion h
    · exact absurd hc (by assumption)
  | case10 acc c r0 hq hb hc ih =>
    intro s r h
    simp only [parseStr] at h
    split at h
    · exact absurd (by assumption) hc
    · exact (ih s r h).trans ⟨[c], rfl⟩

theorem parseStr_last {q : Nat} (acc : String) (l : List Char) :
    ∀ s, parseStr q acc l = .ok (s, []) → l.getLast? = some '"' := by
  induction acc, l using parseStr.induct q with
  | case1 acc => intro s h; exact absurd h (by simp [parseStr])
  | case2 acc r0 =>
    intro s h
    simp only [parseStr, Except.ok.injEq, Prod.mk.injEq] at h
    rw [h.2]
    rfl
  | case3 acc => intro s h; exact absurd h (by simp [parseStr])
  | case4 acc h1 h2 h3 h4 r3 n hx ih =>
    intro s h
    simp only [parseStr, hx] at h
    exact suffix_of_getLast?_some (ih s h) ⟨['\\', 'u', h1, h2, h3, h4], rfl⟩
  | case5 acc h1 h2 h3 h4 r3 hx =>
    intro s h
    simp only [parseStr, hx] at h
    exact Except.noConfusion h
  | case6 acc r2 hne =>
    intro s h
    simp only [parseStr] at h
    exact Except.noConfusion h
  | case7 acc e r2 hu ec hesc ih =>
    intro s h
    simp only [parseStr] at h
    split at h
    · rename_i ec2 heq
      rw [hesc, Option.some.injEq] at heq
      subst heq
      exact suffix_of_getLast?_some (ih s h) ⟨['\\', e], rfl⟩
    · exact Except.noConfusion h
  | case8 acc e r2 hu hesc =>
    intro s h
    simp only [parseStr] at h
    split at h
    · rename_i ec2 heq
      rw [hesc] at heq
      exact Option.noConfusion heq
    · exact Except.noConfusion h
  | case9 acc c r0 hq hb hc =>
    intro s h
    simp only [parseStr] at h
    split at h
    · exact Except.noConfusion h
    · exact absurd hc (by assumption)
  | case10 acc c r0 hq hb hc ih =>
    intro s h
    simp only [parseStr] at h
    split at h
    · exact absurd (by assumption) hc
    · exact suffix_of_getLast?_some (ih s h) ⟨[c], rfl⟩

theorem getLast?_cons_of_ne {c : Char} {t : List Char} (h : t ≠ []) :
    (c :: t).getLast? = t.getLast? := by
  cases t with
  | nil => exact absurd rfl h
  | cons a u => rfl

theorem getLast?_all_digit {ds : List Char} (hne : ds ≠ [])
    (hall : ∀ c ∈ ds, c.isDigit = true) : ∃ d, ds.getLast? = some d ∧ d.isDigit = true := by
  refine ⟨ds.getLast hne, ?_, hall _ (List.getLast_mem hne)⟩
  exact List.getLast?_eq_getLast ds hne

theorem digits1_decomp {l ds r : List Char} (h : digits1 l = some (ds, r)) :
    l = ds ++ r ∧ ds ≠ [] ∧ ∀ c ∈ ds, c.isDigit = true := by
  simp only [digits1] at h
  split at h
  · exact Option.noConfusion h
  · rename_i hne
    simp only [Option.some.injEq, Prod.mk.injEq] at h
    obtain ⟨rfl, rfl⟩ := h
    refine ⟨(List.takeWhile_append_dropWhile _ _).symm, ?_, fun c hc => List.mem_takeWhile_imp hc⟩
    intro hnil
    rw [hnil] at hne
    exact hne rfl

theorem lexIntPart_decomp {l ip r : List Char} (h : lexIntPart l = some (ip, r)) :
    l = ip ++ r ∧ ip ≠ [] ∧ ∀ c ∈ ip, c.isDigit = true := by
  unfold lexIntPart at h
  split at h
  · simp only [Option.some.injEq, Prod.mk.injEq] at h
    obtain ⟨rfl, rfl⟩ := h
    exact ⟨rfl, by simp, by intro c hc; simp at hc; subst hc; rfl⟩
  · rename_i c r0
    split at h
    · rename_i hd
      simp only [Option.some.injEq, Prod.mk.injEq] at h
      obtain ⟨rfl, rfl⟩ := h
      refine ⟨by simp [List.takeWhile_append_dropWhile], by simp, ?_⟩
      intro x hx
      rcases List.mem_cons.mp hx with rfl | hx
      · exact hd
      · exact List.mem_takeWhile_imp hx
    · exact Option.noConfusion h
  · exact Option.noConfusion h

theorem lexFrac_decomp (l : List Char) :
    l = (lexFrac l).1 ++ (lexFrac l).2 ∧
      ((lexFrac l).1 = [] ∨ ∃ d, (lexFrac l).1.getLast? = some d ∧ d.isDigit = true) := by
  unfold lexFrac
  split
  · rename_i r
    split
    · rename_i ds r2 hd
      obtain ⟨hdec, hne, hall⟩ := digits1_decomp hd
      constructor
      · simp [hdec]
      · right
        obtain ⟨d, hd1, hd2⟩ := getLast?_all_digit hne hall
        refine ⟨d, ?_, hd2⟩
        rw [getLast?_cons_of_ne hne, hd1]
    · exact ⟨rfl, Or.inl rfl⟩
  · exact ⟨rfl, Or.inl rfl⟩

theorem lexExp_decomp (l : List Char) :
    l = (lexExp l).1 ++ (lexExp l).2 ∧
      ((lexExp l).1 = [] ∨ ∃ d, (lexExp l).1.getLast? = some d ∧ d.isDigit = true) := by
  unfold lexExp
  split
  · rename_i c s r2
    split
    · split
      · split
        · rename_i ds r3 hd
          obtain ⟨hdec, hne, hall⟩ := digits1_decomp hd
          obtain ⟨d, h1, h2⟩ := getLast?_all_digit hne hall
          constructor
          · simp [hdec]
          · right
            refine ⟨d, ?_, h2⟩
            rw [getLast?_cons_of_ne (by simp), getLast?_cons_of_ne hne, h1]
        · exact ⟨rfl, Or.inl rfl⟩
      · split
        · rename_i ds r3 hd
          obtain ⟨hdec, hne, hall⟩ := digits1_decomp hd
          obtain ⟨d, h1, h2⟩ := getLast?_all_digit hne hall
          constructor
          · rw [List.cons_append]
            rw [← hdec]
          · right
            refine ⟨d, ?_, h2⟩
            rw [getLast?_cons_of_ne hne, h1]
        · exact ⟨rfl, Or.inl rfl⟩
    · exact ⟨rfl, Or.inl rfl⟩
  · exact ⟨rfl, Or.inl rfl⟩

theorem lex_last_digit {ip fr ex : List Char}
    (hipl : ∃ d, ip.getLast? = some d ∧ d.isDigit = true)
    (hfr : fr = [] ∨ ∃ d, fr.getLast? = some d ∧ d.isDigit = true)
    (hex : ex = [] ∨ ∃ d, ex.getLast? = some d ∧ d.isDigit = true) :
    ∃ d, (ip ++ fr ++ ex).getLast? = some d ∧ d.isDigit = true := by
  rcases hex with rfl | ⟨d, hd1, hd2⟩
  · rcases hfr with rfl | ⟨d, hd1, hd2⟩
    · obtain ⟨d, hd1, hd2⟩ := hipl
      exact ⟨d, by simp [List.getLast?_append, hd1], hd2⟩
    · exact ⟨d, by simp [List.getLast?_append, hd1], hd2⟩
  · exact ⟨d, by simp [List.getLast?_append, hd1], hd2⟩

theorem lexNumber_decomp {l lex r : List Char} (h : lexNumber l = some (lex, r)) :
    l = lex ++ r ∧ (∃ c t, lex = c :: t ∧ (c = '-' ∨ c.isDigit = true)) ∧
      ∃ d, lex.getLast? = some d ∧ d.isDigit = true := by
  unfold lexNumber at h
  split at h
  · rename_i r0
    split at h
    · rename_i ip r2 hip
      simp only [Option.some.injEq, Prod.mk.injEq] at h
      obtain ⟨rfl, rfl⟩ := h
      obtain ⟨hdec, hne, hall⟩ := lexIntPart_decomp hip
      obtain ⟨hf, hfl⟩ := lexFrac_decomp r2
      obtain ⟨he, hel⟩ := lexExp_decomp (lexFrac r2).2
      refine ⟨?_, ?_, ?_⟩
      · conv_lhs => rw [hdec, hf, he]
        simp [List.cons_append, List.append_assoc]
      · exact ⟨'-', ip ++ (lexFrac r2).1 ++ (lexExp (lexFrac r2).2).1,
          by simp [List.cons_append, List.append_assoc], Or.inl rfl⟩
      · obtain ⟨d0, h01, h02⟩ := getLast?_all_digit hne hall
        exact lex_last_digit ⟨d0, by rw [getLast?_cons_of_ne hne, h01], h02⟩ hfl hel
    · exact Option.noConfusion h
  · split at h
    · rename_i ip r2 hip
      simp only [Option.some.injEq, Prod.mk.injEq] at h
      obtain ⟨rfl, rfl⟩ := h
      obtain ⟨hdec, hne, hall⟩ := lexIntPart_decomp hip
      obtain ⟨hf, hfl⟩ := lexFrac_decomp r2
      obtain ⟨he, hel⟩ := lexExp_decomp (lexFrac r2).2
      refine ⟨?_, ?_, lex_last_digit (getLast?_all_digit hne hall) hfl hel⟩
      · conv_lhs => rw [hdec, hf, he]
        simp [List.append_assoc]
      · cases hipc : ip with
        | nil => exact absurd hipc hne
        | cons c t =>
          subst hipc
          exact ⟨c, t ++ (lexFrac r2).1 ++ (lexExp (lexFrac r2).2).1,
            by simp [List.cons_append, List.append_assoc],
            Or.inr (hall c (by simp))⟩
    · exact Option.noConfusion h

theorem suffix_step {r x : List Char} {c : Char} (h : r <:+ x) : r <:+ c :: x :=
  h.trans (List.suffix_cons c x)

theorem suffix_drop {r x : List Char} {p : Char → Bool} (h : r <:+ x.dropWhile p) : r <:+ x :=
  h.trans (List.dropWhile_suffix p)

set_option maxHeartbeats 1000000 in
theorem parse_suffix (f : Nat) :
    (∀ l v r, parseVal f l = .ok (v, r) → r <:+ l) ∧
    (∀ l v r, parseElems f l = .ok (v, r) → r <:+ l) ∧
    (∀ l v r, parseMembers f l = .ok (v, r) → r <:+ l) := by
  induction f with
  | zero => refine ⟨?_, ?_, ?_⟩ <;> intro l v r h <;> exact Except.noConfusion h
  | succ f ih =>
    obtain ⟨ihv, ihe, ihm⟩ := ih
    refine ⟨?_, ?_, ?_⟩
    · intro l v r h
      cases l with
      | nil => exact Except.noConfusion h
      | cons c t =>
        simp only [parseVal] at h
        split at h
        · -- string
          cases hps : parseStr (t.length + 1) "" t with
          | error e => rw [hps] at h; exact Except.noConfusion h
          | ok p =>
            obtain ⟨s2, r2⟩ := p
            rw [hps] at h
            injection h with h1
            injection h1 with hv hr
            subst hr
            exact suffix_step (parseStr_suffix _ _ _ _ hps)
        · split at h
          · -- object
            split at h
            · rename_i heq
              injection h with h1
              injection h1 with hv hr
              subst hr
              refine suffix_step (suffix_drop (p := isJWs) ?_)
              rw [heq]
              exact List.suffix_cons _ _
            · exact suffix_step (suffix_drop (ihm _ v r h))
            · exact Except.noConfusion h
          · split at h
            · -- array
              split at h
              · rename_i heq
                injection h with h1
                injection h1 with hv hr
                subst hr
                refine suffix_step (suffix_drop (p := isJWs) ?_)
                rw [heq]
                exact List.suffix_cons _ _
              · exact suffix_step (suffix_drop (ihe _ v r h))
            · split at h
              · -- null
                split at h
                · injection h with h1
                  injection h1 with hv hr
                  subst hr
                  exact ⟨[c, 'u', 'l', 'l'], rfl⟩
                · exact Except.noConfusion h
              · split at h
                · -- true
                  split at h
                  · injection h with h1
                    injection h1 with hv hr
                    subst hr
                    exact ⟨[c, 'r', 'u', 'e'], rfl⟩
                  · exact Except.noConfusion h
                · split at h
                  · -- false
                    split at h
                    · injection h with h1
                      injection h1 with hv hr
                      subst hr
                      exact ⟨[c, 'a', 'l', 's', 'e'], rfl⟩
                    · exact Except.noConfusion h
                  · split at h
                    · -- NaN
                      split at h
                      · injection h with h1
                        injection h1 with hv hr
                        subst hr
                        exact ⟨[c, 'a', 'N'], rfl⟩
                      · exact Except.noConfusion h
                    · split at h
                      · -- Infinity
                        split at h
                        · injection h with h1
                          injection h1 with hv hr
                          subst hr
                          exact ⟨[c, 'n', 'f', 'i', 'n', 'i', 't', 'y'], rfl⟩
                        · exact Except.noConfusion h
                      · -- number, -Infinity
                        split at h
                        · rename_i heq
                          injection h with h1
                          injection h1 with hv hr
                          subst hr
                          obtain ⟨hdec, -, -⟩ := lexNumber_decomp heq
                          exact ⟨_, hdec.symm⟩
                        · split at h
                          · split at h
                            · injection h with h1
                              injection h1 with hv hr
                              subst hr
                              exact ⟨[c, 'I', 'n', 'f', 'i', 'n', 'i', 't', 'y'], rfl⟩
                            · exact Except.noConfusion h
                          · exact Except.noConfusion h
    · intro l v r h
      simp only [parseElems] at h
      split at h
      · exact Except.noConfusion h
      · rename_i v1 r1 heq1
        split at h
        · rename_i heq2
          injection h with h1
          injection h1 with hv hr
          subst hr
          refine List.IsSuffix.trans ?_ (ihv _ _ _ heq1)
          refine List.IsSuffix.trans ?_ (List.dropWhile_suffix isJWs)
          rw [heq2]
          exact List.suffix_cons _ _
        · rename_i heq2
          split at h
          · rename_i res heq3
            split at h
            · injection h with h1
              injection h1 with hv hr
              subst hr
              refine List.IsSuffix.trans ?_ (ihv _ _ _ heq1)
              refine List.IsSuffix.trans ?_ (List.dropWhile_suffix isJWs)
              rw [heq2]
              refine List.IsSuffix.trans ?_ (List.suffix_cons _ _)
              refine List.IsSuffix.trans ?_ (List.dropWhile_suffix isJWs)
              exact ihe _ _ _ heq3
            · exact Except.noConfusion h
          · exact Except.noConfusion h
        · exact Except.noConfusion h
    · intro l v r h
      cases l with
      | nil => exact Except.noConfusion h
      | cons c t =>
        simp only [parseMembers] at h
        split at h
        · rename_i tail0 heq0
          injection heq0 with hc ht
          subst hc
          subst ht
          cases hps : parseStr (t.length + 1) "" t with
          | error e => simp only [hps] at h; exact Except.noConfusion h
          | ok p =>
            obtain ⟨key, r1⟩ := p
            simp only [hps] at h
            split at h
            · rename_i heq2
              split at h
              · exact Except.noConfusion h
              · rename_i v5 r5 heq5
                split at h
                · rename_i heq6
                  injection h with h1
                  injection h1 with hv hr
                  subst hr
                  refine suffix_step ?_
                  refine List.IsSuffix.trans ?_ (parseStr_suffix _ _ _ _ hps)
                  refine List.IsSuffix.trans ?_ (List.dropWhile_suffix isJWs)
                  rw [heq2]
                  refine List.IsSuffix.trans ?_ (List.suffix_cons _ _)
                  refine List.IsSuffix.trans ?_ (List.dropWhile_suffix isJWs)
                  refine List.IsSuffix.trans ?_ (ihv _ _ _ heq5)
                  refine List.IsSuffix.trans ?_ (List.dropWhile_suffix isJWs)
                  rw [heq6]
                  exact List.suffix_cons _ _
                · rename_i heq6
                  split at h
                  · split at h
                    · rename_i res heq8
                      split at h
                      · injection h with h1
                        injection h1 with hv hr
                        subst hr
                        refine suffix_step ?_
                        refine List.IsSuffix.trans ?_ (parseStr_suffix _ _ _ _ hps)
                        refine List.IsSuffix.trans ?_ (List.dropWhile_suffix isJWs)
                        rw [heq2]
                        refine List.IsSuffix.trans ?_ (List.suffix_cons _ _)
                        refine List.IsSuffix.trans ?_ (List.dropWhile_suffix isJWs)
                        refine List.IsSuffix.trans ?_ (ihv _ _ _ heq5)
                        refine List.IsSuffix.trans ?_ (List.dropWhile_suffix isJWs)
                        rw [heq6]
                        refine List.IsSuffix.trans ?_ (List.suffix_cons _ _)
                        refine List.IsSuffix.trans ?_ (List.dropWhile_suffix isJWs)
                        exact ihm _ _ _ heq8
                      · exact Except.noConfusion h
                    · exact Except.noConfusion h
                  · exact Except.noConfusion h
                · exact Except.noConfusion h
            · exact Except.noConfusion h
        · exact Except.noConfusion h

theorem digit_good {d : Char} (h : d.isDigit = true) : isPyWs d = false ∧ d ≠ tick := by
  constructor
  · cases hp : isPyWs d with
    | false => rfl
    | true =>
      exfalso
      simp only [isPyWs, Bool.or_eq_true, beq_iff_eq] at hp
      rcases hp with ((((hp | hp) | hp) | hp) | hp) | hp <;> subst hp <;>
        exact absurd h (by decide)
  · intro hd
    rw [hd] at h
    exact absurd h (by decide)

theorem getLast?_cons_some {c x : Char} {t : List Char} (h : t.getLast? = some x) :
    (c :: t).getLast? = some x := by
  rw [getLast?_cons_of_ne (getLast?_ne_nil h)]
  exact h

set_option maxHeartbeats 1000000 in
theorem parse_last (f : Nat) :
    (∀ l v, parseVal f l = .ok (v, []) →
      ∃ c, l.getLast? = some c ∧ isPyWs c = false ∧ c ≠ tick) ∧
    (∀ l v, parseElems f l = .ok (v, []) →
      ∃ c, l.getLast? = some c ∧ isPyWs c = false ∧ c ≠ tick) ∧
    (∀ l v, parseMembers f l = .ok (v, []) →
      ∃ c, l.getLast? = some c ∧ isPyWs c = false ∧ c ≠ tick) := by
  induction f with
  | zero => refine ⟨?_, ?_, ?_⟩ <;> intro l v h <;> exact Except.noConfusion h
  | succ f ih =>
    obtain ⟨ihv, ihe, ihm⟩ := ih
    refine ⟨?_, ?_, ?_⟩
    · intro l v h
      cases l with
      | nil => exact Except.noConfusion h
      | cons c t =>
        simp only [parseVal] at h
        split at h
        · -- string
          cases hps : parseStr (t.length + 1) "" t with
          | error e => simp only [hps] at h; exact Except.noConfusion h
          | ok p =>
            obtain ⟨s2, r2⟩ := p
            simp only [hps] at h
            injection h with h1
            injection h1 with hv hr
            rw [hr] at hps
            exact ⟨'"', getLast?_cons_some (parseStr_last _ _ _ hps), by decide, by decide⟩
        · split at h
          · -- object
            split at h
            · rename_i heq
              injection h with h1
              injection h1 with hv hr
              subst hr
              refine ⟨'}', suffix_of_getLast?_some (show (['}'] : List Char).getLast? = some '}' from rfl) (suffix_step ?_), by decide, by decide⟩
              refine List.IsSuffix.trans ?_ (List.dropWhile_suffix isJWs)
              rw [heq]
            · obtain ⟨c0, hc1, hc2⟩ := ihm _ _ h
              exact ⟨c0, suffix_of_getLast?_some hc1
                (suffix_step (List.dropWhile_suffix isJWs)), hc2⟩
            · exact Except.noConfusion h
          · split at h
            · -- array
              split at h
              · rename_i heq
                injection h with h1
                injection h1 with hv hr
                subst hr
                refine ⟨']', suffix_of_getLast?_some (show (([']'] : List Char)).getLast? = some ']' from rfl) (suffix_step ?_), by decide, by decide⟩
                refine List.IsSuffix.trans ?_ (List.dropWhile_suffix isJWs)
                rw [heq]
              · obtain ⟨c0, hc1, hc2⟩ := ihe _ _ h
                exact ⟨c0, suffix_of_getLast?_some hc1
                  (suffix_step (List.dropWhile_suffix isJWs)), hc2⟩
            · split at h
              · -- null
                split at h
                · injection h with h1
                  injection h1 with hv hr
                  subst hr
                  exact ⟨'l', rfl, by decide, by decide⟩
                · exact Except.noConfusion h
              · split at h
                · -- true
                  split at h
                  · injection h with h1
                    injection h1 with hv hr
                    subst hr
                    exact ⟨'e', rfl, by decide, by decide⟩
                  · exact Except.noConfusion h
                · split at h
                  · -- false
                    split at h
                    · injection h with h1
                      injection h1 with hv hr
                      subst hr
                      exact ⟨'e', rfl, by decide, by decide⟩
                    · exact Except.noConfusion h
                  · split at h
                    · -- NaN
                      split at h
                      · injection h with h1
                        injection h1 with hv hr
                        subst hr
                        exact ⟨'N', rfl, by decide, by decide⟩
                      · exact Except.noConfusion h
                    · split at h
                      · -- Infinity
                        split at h
                        · injection h with h1
                          injection h1 with hv hr
                          subst hr
                          exact ⟨'y', rfl, by decide, by decide⟩
                        · exact Except.noConfusion h
                      · split at h
                        · -- number
                          rename_i heq
                          injection h with h1
                          injection h1 with hv hr
                          subst hr
                          obtain ⟨hdec, -, d, hld, hdd⟩ := lexNumber_decomp heq
                          obtain ⟨hd1, hd2⟩ := digit_good hdd
                          refine ⟨d, ?_, hd1, hd2⟩
                          rw [hdec, List.append_nil]
                          exact hld
                        · split at h
                          · split at h
                            · -- -Infinity
                              injection h with h1
                              injection h1 with hv hr
                              subst hr
                              exact ⟨'y', rfl, by decide, by decide⟩
                            · exact Except.noConfusion h
                          · exact Except.noConfusion h
    · intro l v h
      simp only [parseElems] at h
      split at h
      · exact Except.noConfusion h
      · rename_i v1 r1 heq1
        split at h
        · rename_i heq2
          injection h with h1
          injection h1 with hv hr
          subst hr
          refine ⟨']', suffix_of_getLast?_some (show (([']'] : List Char)).getLast? = some ']' from rfl) ?_, by decide, by decide⟩
          refine List.IsSuffix.trans ?_ ((parse_suffix f).1 _ _ _ heq1)
          refine List.IsSuffix.trans ?_ (List.dropWhile_suffix isJWs)
          rw [heq2]
        · rename_i heq2
          split at h
          · rename_i res heq3
            split at h
            · injection h with h1
              injection h1 with hv hr
              subst hr
              obtain ⟨c0, hc1, hc2⟩ := ihe _ _ heq3
              refine ⟨c0, suffix_of_getLast?_some hc1 ?_, hc2⟩
              refine List.IsSuffix.trans ?_ ((parse_suffix f).1 _ _ _ heq1)
              refine List.IsSuffix.trans ?_ (List.dropWhile_suffix isJWs)
              rw [heq2]
              refine List.IsSuffix.trans ?_ (List.suffix_cons _ _)
              exact List.dropWhile_suffix isJWs
            · exact Except.noConfusion h
          · exact Except.noConfusion h
        · exact Except.noConfusion h
    · intro l v h
      cases l with
      | nil => exact Except.noConfusion h
      | cons c t =>
        simp only [parseMembers] at h
        split at h
        · rename_i tail0 heq0
          injection heq0 with hc ht
          subst hc
          subst ht
          cases hps : parseStr (t.length + 1) "" t with
          | error e => simp only [hps] at h; exact Except.noConfusion h
          | ok p =>
            obtain ⟨key, r1⟩ := p
            simp only [hps] at h
            split at h
            · rename_i heq2
              split at h
              · exact Except.noConfusion h
              · rename_i v5 r5 heq5
                split at h
                · rename_i heq6
                  injection h with h1
                  injection h1 with hv hr
                  subst hr
                  refine ⟨'}', suffix_of_getLast?_some (show (['}'] : List Char).getLast? = some '}' from rfl) (suffix_step ?_), by decide, by decide⟩
                  refine List.IsSuffix.trans ?_ (parseStr_suffix _ _ _ _ hps)
                  refine List.IsSuffix.trans ?_ (List.dropWhile_suffix isJWs)
                  rw [heq2]
                  refine List.IsSuffix.trans ?_ (List.suffix_cons _ _)
                  refine List.IsSuffix.trans ?_ (List.dropWhile_suffix isJWs)
                  refine List.IsSuffix.trans ?_ ((parse_suffix f).1 _ _ _ heq5)
                  refine List.IsSuffix.trans ?_ (List.dropWhile_suffix isJWs)
                  rw [heq6]
                · rename_i heq6
                  split at h
                  · split at h
                    · rename_i res heq8
                      split at h
                      · injection h with h1
                        injection h1 with hv hr
                        subst hr
                        obtain ⟨c0, hc1, hc2⟩ := ihm _ _ heq8
                        refine ⟨c0, suffix_of_getLast?_some hc1 (suffix_step ?_), hc2⟩
                        refine List.IsSuffix.trans ?_ (parseStr_suffix _ _ _ _ hps)
                        refine List.IsSuffix.trans ?_ (List.dropWhile_suffix isJWs)
                        rw [heq2]
                        refine List.IsSuffix.trans ?_ (List.suffix_cons _ _)
                        refine List.IsSuffix.trans ?_ (List.dropWhile_suffix isJWs)
                        refine List.IsSuffix.trans ?_ ((parse_suffix f).1 _ _ _ heq5)
                        refine List.IsSuffix.trans ?_ (List.dropWhile_suffix isJWs)
                        rw [heq6]
                        refine List.IsSuffix.trans ?_ (List.suffix_cons _ _)
                        exact List.dropWhile_suffix isJWs
                      · exact Except.noConfusion h
                    · exact Except.noConfusion h
                  · exact Except.noConfusion h
                · exact Except.noConfusion h
            · exact Except.noConfusion h
        · exact Except.noConfusion h

theorem parseVal_head {f : Nat} {l : List Char} {v : Json} {r : List Char}
    (h : parseVal f l = .ok (v, r)) :
    ∃ c t, l = c :: t ∧ isPyWs c = false ∧ c ≠ tick := by
  cases f with
  | zero => exact Except.noConfusion h
  | succ f =>
    cases l with
    | nil => exact Except.noConfusion h
    | cons c t =>
      refine ⟨c, t, rfl, ?_⟩
      simp only [parseVal] at h
      split at h
      · rename_i hc; subst hc; exact ⟨by decide, by decide⟩
      · split at h
        · rename_i hc; subst hc; exact ⟨by decide, by decide⟩
        · split at h
          · rename_i hc; subst hc; exact ⟨by decide, by decide⟩
          · split at h
            · rename_i hc; subst hc; exact ⟨by decide, by decide⟩
            · split at h
              · rename_i hc; subst hc; exact ⟨by decide, by decide⟩
              · split at h
                · rename_i hc; subst hc; exact ⟨by decide, by decide⟩
                · split at h
                  · rename_i hc; subst hc; exact ⟨by decide, by decide⟩
                  · split at h
                    · rename_i hc; subst hc; exact ⟨by decide, by decide⟩
                    · split at h
                      · rename_i heq
                        obtain ⟨hdec, ⟨c0, t0, hct, hhead⟩, -⟩ := lexNumber_decomp heq
                        rw [hct, List.cons_append] at hdec
                        injection hdec with h1 h2
                        subst h1
                        rcases hhead with rfl | hd
                        · exact ⟨by decide, by decide⟩
                        · exact digit_good hd
                      · split at h
                        · rename_i hc; subst hc; exact ⟨by decide, by decide⟩
                        · exact Except.noConfusion h

theorem fenceJson_prefix_false {c : Char} {t : List Char} (hc : c ≠ tick) :
    fenceJson.isPrefixOf (c :: t) = false := by
  cases hp : fenceJson.isPrefixOf (c :: t) with
  | false => rfl
  | true =>
    exfalso
    have := List.isPrefixOf_iff_prefix.mp hp
    obtain ⟨u, hu⟩ := this
    rw [show fenceJson = tick :: (fence3.tail ++ ['j', 's', 'o', 'n']) from rfl] at hu
    simp only [List.cons_append] at hu
    exact hc (List.cons.inj hu).1.symm

theorem fence3_prefix_false {c : Char} {t : List Char} (hc : c ≠ tick) :
    fence3.isPrefixOf (c :: t) = false := by
  cases hp : fence3.isPrefixOf (c :: t) with
  | false => rfl
  | true =>
    exfalso
    have := List.isPrefixOf_iff_prefix.mp hp
    obtain ⟨u, hu⟩ := this
    rw [show fence3 = tick :: [tick, tick] from rfl] at hu
    simp only [List.cons_append] at hu
    exact hc (List.cons.inj hu).1.symm

theorem fence3_suffix_false {l : List Char} {d : Char} (hl : l.getLast? = some d)
    (hd : d ≠ tick) : fence3.isSuffixOf l = false := by
  cases hp : fence3.isSuffixOf l with
  | false => rfl
  | true =>
    exfalso
    have hs := List.isSuffixOf_iff_suffix.mp hp
    obtain ⟨u, hu⟩ := hs
    have : l.getLast? = some tick := by
      rw [← hu]
      rw [show (fence3 : List Char) = [tick, tick] ++ [tick] from rfl]
      rw [← List.append_assoc]
      exact List.getLast?_concat _
    rw [hl] at this
    exact hd (Option.some.inj this)

set_option maxHeartbeats 1000000 in
theorem extract_of_parse_ok {l : List Char} {v : Json} (h : jsonParseE l = .ok v) :
    extractJson l = .ok v := by
  simp only [jsonParseE] at h
  cases hpv : parseVal ((trimR isJWs (l.dropWhile isJWs)).length + 1)
      (trimR isJWs (l.dropWhile isJWs)) with
  | error e => simp only [hpv] at h; exact Except.noConfusion h
  | ok p =>
    obtain ⟨v1, r⟩ := p
    simp only [hpv] at h
    cases r with
    | cons a as => simp at h
    | nil =>
      simp only [List.isEmpty_nil, if_true] at h
      obtain rfl : v1 = v := by
        injection h with h1
      obtain ⟨c, t0, hT, hcp, hct⟩ := parseVal_head hpv
      obtain ⟨d, hld, hdp, hdt⟩ := (parse_last _).1 _ _ hpv
      obtain ⟨w, hw, hwall⟩ := trimR_decomp isJWs (l.dropWhile isJWs)
      have h4 : l.dropWhile isPyWs = l.dropWhile isJWs := by
        have h1 : l.dropWhile isPyWs = (l.dropWhile isJWs).dropWhile isPyWs :=
          (dropWhile_absorb (fun x hx => jws_pyws hx) l).symm
        rw [h1]
        calc (l.dropWhile isJWs).dropWhile isPyWs
            = ((c :: t0) ++ w).dropWhile isPyWs := by rw [← hT, ← hw]
          _ = (c :: (t0 ++ w)).dropWhile isPyWs := by rw [List.cons_append]
          _ = c :: (t0 ++ w) := dropWhile_cons_false hcp _
          _ = (c :: t0) ++ w := by rw [List.cons_append]
          _ = l.dropWhile isJWs := by rw [← hT, ← hw]
      have h5 : pyStrip l = trimR isJWs (l.dropWhile isJWs) := by
        unfold pyStrip
        rw [h4]
        conv_lhs => rw [hw]
        rw [trimR_append_all (fun x hx => jws_pyws (hwall x hx))]
        exact trimR_eq_self hld hdp
      have hld2 : (c :: t0).getLast? = some d := by rw [← hT]; exact hld
      have h6 : cleanResponse l = trimR isJWs (l.dropWhile isJWs) := by
        simp only [cleanResponse, h5, hT, fenceJson_prefix_false hct,
          fence3_prefix_false hct, fence3_suffix_false hld2 hdt,
          Bool.false_eq_true, if_false]
        have hh1 : ∀ x, (c :: t0).head? = some x → isPyWs x = false := by
          intro x hx
          injection hx with hx
          subst hx
          exact hcp
        have hh2 : ∀ x, (c :: t0).getLast? = some x → isPyWs x = false := by
          intro x hx
          rw [hld2] at hx
          injection hx with hx
          subst hx
          exact hdp
        rw [pyStrip_eq_self hh1 hh2]
      have h7 : (trimR isJWs (l.dropWhile isJWs)).dropWhile isJWs =
          trimR isJWs (l.dropWhile isJWs) := by
        conv_lhs => rw [hT]
        rw [dropWhile_cons_false (pyws_false_jws hcp)]
        exact hT.symm
      have h8 : trimR isJWs (trimR isJWs (l.dropWhile isJWs)) =
          trimR isJWs (l.dropWhile isJWs) := trimR_eq_self hld (pyws_false_jws hdp)
      unfold extractJson
      rw [h6]
      simp only [jsonParseE, h7, h8, hpv, List.isEmpty_nil, if_true]

/-! ### Claim theorems -/


theorem strFoldl_append (l : List String) (a : String) :
    l.foldl (fun r s => r ++ s) a = a ++ l.foldl (fun r s => r ++ s) "" := by
  induction l generalizing a with
  | nil => simp [String.append_empty]
  | cons x xs ih =>
    simp only [List.foldl_cons]
    rw [ih (a ++ x), ih ("" ++ x), String.empty_append, String.append_assoc]

theorem sjoin_cons (a : String) (l : List String) :
    String.join (a :: l) = a ++ String.join l := by
  show (a :: l).foldl (fun r s => r ++ s) "" = a ++ l.foldl (fun r s => r ++ s) ""
  simp only [List.foldl_cons, String.empty_append]
  exact strFoldl_append l a

theorem accumulateChunks_eq (chunks : List Chunk) :
    accumulateChunks chunks = String.join ((chunks.filter Chunk.hasParts).map Chunk.text) := by
  have key : ∀ (cs : List Chunk) (acc : String),
      cs.foldl (fun acc c => if c.hasParts && !(c.text == "") then acc ++ c.text else acc) acc
        = acc ++ String.join ((cs.filter Chunk.hasParts).map Chunk.text) := by
    intro cs
    induction cs with
    | nil => intro acc; simp [String.join, String.append_empty]
    | cons c cs ih =>
      intro acc
      simp only [List.foldl_cons]
      cases hp : c.hasParts with
      | false =>
        rw [if_neg (by simp)]
        rw [ih acc, List.filter_cons_of_neg (by simp [hp])]
      | true =>
        rw [List.filter_cons_of_pos (by simp [hp])]
        cases ht : c.text == "" with
        | true =>
          rw [if_neg (by decide)]
          rw [ih acc, List.map_cons, sjoin_cons]
          have hte : c.text = "" := by simpa using ht
          rw [hte, String.empty_append]
        | false =>
          rw [if_pos (by decide)]
          rw [ih (acc ++ c.text), List.map_cons, sjoin_cons, String.append_assoc]
  rw [accumulateChunks, key chunks "", String.empty_append]

set_option maxRecDepth 40000 in
/-- Claim C1 (counterexample): the extractor does not search for a
"```json" fenced block at interior positions — on a response whose fence
marker is not at the very start, the spec's ordered-strategy extractor
succeeds while main.py's extractor fails. -/
theorem claim_C1_counterexample :
    specOrderedExtract "Result: ```json\n\x7b\"a\": 1\x7d\n```" =
        .ok (Json.obj [("a", Json.num "1")]) ∧
      extractJson ("Result: ```json\n\x7b\"a\": 1\x7d\n```").data =
        .error ⟨"Expecting value", 0⟩ :=
  ⟨rfl, rfl⟩

/-- Claim C1 (amended): the extractor makes exactly one parse attempt, on
the string obtained by stripping whitespace, removing a leading "```json"
or "```" marker only at the very start, removing a trailing "```" only at
the very end, and stripping whitespace again; and this single attempt
subsumes the spec's direct-parse strategy on already-valid JSON. -/
theorem claim_C1_amended (s : String) :
    extractJson s.data =
        jsonParseE (pyStrip (stripTrailingFence (stripLeadingFence (pyStrip s.data)))) ∧
      ∀ v, jsonParseE s.data = .ok v → extractJson s.data = .ok v := by
  constructor
  · rfl
  · intro v hv
    exact extract_of_parse_ok hv

set_option maxRecDepth 40000 in
/-- Witness for claim C1's amended theorem at a concrete valid input. -/
theorem claim_C1_witness :
    extractJson ("\x7b\x7d").data = .ok (Json.obj []) :=
  (claim_C1_amended "\x7b\x7d").2 (Json.obj []) rfl

set_option maxRecDepth 40000 in
/-- Claim C2 (counterexample): on input "not json at all" the surfaced
error message is the decoder diagnostic only; it does not carry any
preview of the raw text. -/
theorem claim_C2_counterexample :
    processResponse "not json at all" =
        .error (.invalidJson "Expecting value: line 1 column 1 (char 0)") ∧
      ¬ (("not json at all").data <:+:
        (GenError.message (.invalidJson "Expecting value: line 1 column 1 (char 0)")).data) :=
  ⟨rfl, by decide⟩

/-- Claim C2 (amended): when extraction fails on a non-empty response, the
surfaced failure message is "Invalid JSON response from AI: " followed by
the JSON decoder's own description (error phrase, line, column, char);
the raw-text previews are only logged. -/
theorem claim_C2_amended (s : String) (e : DecodeError)
    (hne : (pyStrip s.data).isEmpty = false)
    (hx : extractJson s.data = .error e) :
    processResponse s =
        .error (.invalidJson (renderDecodeError (cleanResponse s.data) e)) ∧
      (GenError.invalidJson (renderDecodeError (cleanResponse s.data) e)).message =
        "Invalid JSON response from AI: " ++ renderDecodeError (cleanResponse s.data) e := by
  constructor
  · simp [processResponse, hne, hx]
  · rfl

set_option maxRecDepth 40000 in
/-- Witness for claim C2's amended theorem at "not json at all". -/
theorem claim_C2_witness :
    processResponse "not json at all" =
        .error (.invalidJson (renderDecodeError (cleanResponse ("not json at all").data)
          ⟨"Expecting value", 0⟩)) ∧
      (GenError.invalidJson (renderDecodeError (cleanResponse ("not json at all").data)
          ⟨"Expecting value", 0⟩)).message =
        "Invalid JSON response from AI: " ++
          renderDecodeError (cleanResponse ("not json at all").data) ⟨"Expecting value", 0⟩ :=
  claim_C2_amended "not json at all" ⟨"Expecting value", 0⟩ (by decide) rfl

set_option maxRecDepth 40000 in
/-- Claim C3 (counterexample): a successful analyze response has exactly
the fields status, data, error and tokens_used — there is no metadata
object. -/
theorem claim_C3_counterexample :
    analyze_company ⟨"Acme", "https://acme.example", none⟩ "\x7b\"a\": 1\x7d" =
        .ok ⟨"success", some (Json.obj [("a", Json.num "1")]), none, none⟩ ∧
      Json.objKeys (responseToJson
          ⟨"success", some (Json.obj [("a", Json.num "1")]), none, none⟩) =
        ["status", "data", "error", "tokens_used"] ∧
      "metadata" ∉ Json.objKeys (responseToJson
          ⟨"success", some (Json.obj [("a", Json.num "1")]), none, none⟩) :=
  ⟨rfl, rfl, by decide⟩

/-- Claim C3 (amended): every successful request yields status "success",
the parsed report as data, and null error and tokens_used fields; the
serialized response object has exactly those four keys. -/
theorem claim_C3_amended (req : CompanyAnalysisRequest) (raw : String) (v : Json)
    (h : processResponse raw = .ok v) :
    analyze_company req raw = .ok ⟨"success", some v, none, none⟩ ∧
      Json.objKeys (responseToJson ⟨"success", some v, none, none⟩) =
        ["status", "data", "error", "tokens_used"] := by
  constructor
  · simp [analyze_company, h]
  · rfl

set_option maxRecDepth 40000 in
/-- Witness for claim C3's amended theorem. -/
theorem claim_C3_witness :
    analyze_company ⟨"Acme", "https://acme.example", none⟩ "\x7b\x7d" =
        .ok ⟨"success", some (Json.obj []), none, none⟩ ∧
      Json.objKeys (responseToJson ⟨"success", some (Json.obj []), none, none⟩) =
        ["status", "data", "error", "tokens_used"] :=
  claim_C3_amended ⟨"Acme", "https://acme.example", none⟩ "\x7b\x7d" (Json.obj []) rfl

/-- Claim C4: the extractor is idempotent on already-valid JSON — whenever
the raw string itself parses, extraction returns exactly the parse of the
raw string. -/
theorem claim_C4_thm (s : String) (v : Json) (h : jsonParseE s.data = .ok v) :
    extractJson s.data = .ok v :=
  extract_of_parse_ok h

set_option maxRecDepth 40000 in
/-- Witness for claim C4 at a concrete valid JSON input. -/
theorem claim_C4_witness :
    jsonParseE (" \x7b\"a\": 1\x7d ").data = .ok (Json.obj [("a", Json.num "1")]) ∧
      extractJson (" \x7b\"a\": 1\x7d ").data = .ok (Json.obj [("a", Json.num "1")]) :=
  ⟨rfl, claim_C4_thm (" \x7b\"a\": 1\x7d ") (Json.obj [("a", Json.num "1")]) rfl⟩

/-- Claim C5: a whitespace-only (in particular empty) accumulated string
makes main.py signal the empty-response failure (never the parse-failure
error), and an empty accumulated stream makes ai_service's
generate_report fail before any further processing. -/
theorem claim_C5_thm :
    (∀ s : String, (pyStrip s.data).isEmpty = true →
      processResponse s = .error .emptyResponse) ∧
    ∀ chunks : List Chunk, accumulateChunks chunks = "" →
      generate_report chunks = .error .emptyOrIncomplete := by
  constructor
  · intro s hs
    simp [processResponse, hs]
  · intro chunks hc
    simp [generate_report, hc]

/-- Witness for claim C5 at a whitespace-only response and an empty
chunk stream. -/
theorem claim_C5_witness :
    processResponse "  " = .error .emptyResponse ∧
      generate_report [] = .error .emptyOrIncomplete :=
  ⟨claim_C5_thm.1 "  " (by decide), claim_C5_thm.2 [] rfl⟩

/-- Claim C6: the prompt literally contains the website URL, and the
LinkedIn URL whenever one is given. -/
theorem claim_C6_thm (n w : String) (lo : Option String) (d : String) :
    w.data <:+: (buildPrompt n w lo d).data ∧
      ∀ l, lo = some l → l.data <:+: (buildPrompt n w lo d).data := by
  constructor
  · cases lo with
    | none =>
      refine ⟨("Analyze ").data,
        (" and generate the sales intelligence report.\n\nCompany Name: " ++ n ++
          "\nAnalysis Date: " ++ d ++
          "\n\nReturn valid JSON only - no markdown or code blocks.").data, ?_⟩
      simp [buildPrompt, String.data_append, List.append_assoc]
    | some l =>
      refine ⟨("Analyze ").data,
        (" and generate the sales intelligence report.\n\nCompany Name: " ++ n ++
          ("\nCompany LinkedIn: " ++ l) ++
          "\nAnalysis Date: " ++ d ++
          "\n\nReturn valid JSON only - no markdown or code blocks.").data, ?_⟩
      simp [buildPrompt, String.data_append, List.append_assoc]
  · rintro l rfl
    refine ⟨("Analyze " ++ w ++
        " and generate the sales intelligence report.\n\nCompany Name: " ++ n ++
        "\nCompany LinkedIn: ").data,
      ("\nAnalysis Date: " ++ d ++
        "\n\nReturn valid JSON only - no markdown or code blocks.").data, ?_⟩
    simp [buildPrompt, String.data_append, List.append_assoc]

/-- Witness for claim C6 at concrete URLs. -/
theorem claim_C6_witness :
    ("https://li.example").data <:+:
      (buildPrompt "Acme" "https://acme.example" (some "https://li.example")
        "October 12, 2026").data :=
  (claim_C6_thm "Acme" "https://acme.example" (some "https://li.example")
    "October 12, 2026").2 "https://li.example" rfl

/-- Claim C7 (counterexample): the analysis date is rendered with
strftime's "%B %d, %Y" (e.g. "October 12, 2026"), not in YYYY-MM-DD
form. -/
theorem claim_C7_counterexample :
    renderAnalysisDate 2026 10 12 = "October 12, 2026" ∧
      renderAnalysisDate 2026 10 12 ≠ isoDate 2026 10 12 :=
  ⟨rfl, by decide⟩

/-- Claim C7 (amended): the request schema has no analysisDate field; the
prompt always embeds the current date rendered via "%B %d, %Y". -/
theorem claim_C7_amended (req : CompanyAnalysisRequest) (y m d : Nat) :
    ("Analysis Date: " ++ renderAnalysisDate y m d).data <:+:
      (generatePrompt req y m d).data := by
  have hsplit : ("\nAnalysis Date: " : String).data =
      ("\n" : String).data ++ ("Analysis Date: " : String).data := rfl
  obtain ⟨n0, w0, lo0⟩ := req
  cases lo0 with
  | none =>
    refine ⟨("Analyze " ++ w0 ++
        " and generate the sales intelligence report.\n\nCompany Name: " ++
        n0 ++ "\n").data,
      ("\n\nReturn valid JSON only - no markdown or code blocks.").data, ?_⟩
    simp [generatePrompt, buildPrompt, String.data_append, hsplit, List.append_assoc]
  | some l =>
    refine ⟨("Analyze " ++ w0 ++
        " and generate the sales intelligence report.\n\nCompany Name: " ++
        n0 ++ ("\nCompany LinkedIn: " ++ l) ++ "\n").data,
      ("\n\nReturn valid JSON only - no markdown or code blocks.").data, ?_⟩
    simp [generatePrompt, buildPrompt, String.data_append, hsplit, List.append_assoc]

/-- Claim C8: an accumulated string that starts with a fence marker but
has no closing fence reaches a defined outcome: extraction either
succeeds or signals the controlled invalid-JSON failure (never the
empty-response path, and no crash — the pipeline is a total function). -/
theorem claim_C8_thm (s : String)
    (h1 : fence3.isPrefixOf (pyStrip s.data) = true)
    (h2 : findInfixIdx fence3 ((pyStrip s.data).drop 3) = none) :
    (∃ v, processResponse s = .ok v) ∨
      ∃ d, processResponse s = .error (.invalidJson d) := by
  have hne : (pyStrip s.data).isEmpty = false := by
    cases hps : pyStrip s.data with
    | nil => rw [hps] at h1; exact absurd h1 (by decide)
    | cons a as => rfl
  cases hx : extractJson s.data with
  | ok v =>
    left
    exact ⟨v, by simp [processResponse, hne, hx]⟩
  | error e =>
    right
    refine ⟨renderDecodeError (cleanResponse s.data) e, ?_⟩
    simp [processResponse, hne, hx]

set_option maxRecDepth 40000 in
/-- Witness for claim C8: an unclosed fence whose content still parses. -/
theorem claim_C8_witness :
    (∃ v, processResponse "```\x7b\"a\":1\x7d" = .ok v) ∨
      ∃ d, processResponse "```\x7b\"a\":1\x7d" = .error (.invalidJson d) :=
  claim_C8_thm "```\x7b\"a\":1\x7d" (by decide) (by decide)

/-- Claim C9: a trailing "```" is stripped even when no opening fence is
present — for such strings the single parse attempt runs on the stripped
form with the final three backticks removed. -/
theorem claim_C9_thm (s : String)
    (h1 : fence3.isPrefixOf (pyStrip s.data) = false)
    (h2 : fence3.isSuffixOf (pyStrip s.data) = true) :
    extractJson s.data =
      jsonParseE (pyStrip ((pyStrip s.data).take ((pyStrip s.data).length - 3))) := by
  have hj : fenceJson.isPrefixOf (pyStrip s.data) = false := by
    cases hp : fenceJson.isPrefixOf (pyStrip s.data) with
    | false => rfl
    | true =>
      exfalso
      have hpre := List.isPrefixOf_iff_prefix.mp hp
      have h3 : (fence3 : List Char) <+: fenceJson := ⟨['j', 's', 'o', 'n'], rfl⟩
      have h4 := List.isPrefixOf_iff_prefix.mpr (h3.trans hpre)
      rw [h1] at h4
      exact Bool.noConfusion h4
  simp [extractJson, cleanResponse, hj, h1, h2]

set_option maxRecDepth 40000 in
/-- Witness for claim C9: "\x7b\"a\":1\x7d\n```" extracts to the object
even though the direct parse of the whole string fails with Extra data. -/
theorem claim_C9_witness :
    extractJson ("\x7b\"a\":1\x7d\n```").data = .ok (Json.obj [("a", Json.num "1")]) ∧
      jsonParseE ("\x7b\"a\":1\x7d\n```").data = .error ⟨"Extra data", 8⟩ := by
  constructor
  · rw [claim_C9_thm ("\x7b\"a\":1\x7d\n```") (by decide) (by decide)]
    rfl
  · rfl

/-- Claim C10: generate_report performs no fence-stripping and no JSON
parsing — it fails exactly when the accumulated text is shorter than 10
characters, and otherwise returns the chunk texts joined verbatim in
arrival order. -/
theorem claim_C10_thm (chunks : List Chunk) :
    (generate_report chunks = .error .emptyOrIncomplete ↔
        (accumulateChunks chunks).length < 10) ∧
      (10 ≤ (accumulateChunks chunks).length →
        generate_report chunks =
          .ok (String.join ((chunks.filter Chunk.hasParts).map Chunk.text))) := by
  have hor : (accumulateChunks chunks = "" ∨ (accumulateChunks chunks).length < 10) ↔
      (accumulateChunks chunks).length < 10 := by
    constructor
    · rintro (he | hl)
      · rw [he]; decide
      · exact hl
    · exact Or.inr
  constructor
  · constructor
    · intro h
      by_contra hno
      have hcond : ¬(accumulateChunks chunks = "" ∨ (accumulateChunks chunks).length < 10) :=
        fun hc => hno (hor.mp hc)
      simp only [generate_report, if_neg hcond] at h
      exact Except.noConfusion h
    · intro hl
      simp only [generate_report, if_pos (hor.mpr hl)]
  · intro hge
    have hcond : ¬(accumulateChunks chunks = "" ∨ (accumulateChunks chunks).length < 10) :=
      fun hc => absurd (hor.mp hc) (by omega)
    simp only [generate_report, if_neg hcond]
    rw [accumulateChunks_eq]

/-- Witness for claim C10 at a concrete two-chunk stream. -/
theorem claim_C10_witness :
    generate_report [⟨true, "\x7b\"a\": 1"⟩, ⟨false, "ignored"⟩, ⟨true, "23\x7d"⟩] =
      .ok (String.join (([⟨true, "\x7b\"a\": 1"⟩, ⟨false, "ignored"⟩,
        ⟨true, "23\x7d"⟩] : List Chunk).filter Chunk.hasParts |>.map Chunk.text)) :=
  (claim_C10_thm _).2 (by decide)
